import Mathlib

/-!
Verification of the branchify path-to-tree renderer.

The development embeds the two Rust source files:
* `src/tree_generator.rs` is embedded in namespace `TG` (status-aware variant);
* `src/main.rs` is embedded in namespace `M` (status-less variant).

Rust `BTreeMap<String, Node>` iterates its entries in strictly ascending key
order (byte-wise lexicographic order on UTF-8 strings, equal to code-point
lexicographic order).  It is embedded as a sorted association list
`List (String × Node)`; the map operations `entry(..).or_insert_with(..)` and
in-place value update are embedded as sorted-position insertion
(`entryOrInsert`) and key-preserving replacement (`updateAt`).

Machine strings are embedded as Lean `String` (a list of unicode code points);
order comparisons are written out over the code points so that every
definition evaluates by kernel reduction.
-/

set_option maxHeartbeats 4000000
set_option maxRecDepth 8000

/-- Code-point lexicographic order on character lists: the order used by
Rust `Ord for String` (byte order on UTF-8 agrees with code-point order). -/
def charsLt : List Char → List Char → Bool
  | [], [] => false
  | [], _ :: _ => true
  | _ :: _, [] => false
  | a :: as, b :: bs => a.toNat < b.toNat || (a == b && charsLt as bs)

/-- Lexicographic order on strings, `Ord for String` of Rust. -/
def strLt (a b : String) : Bool := charsLt a.data b.data

/-- Split a character list at every occurrence of the separator `/`,
keeping empty groups (the behavior of splitting before empty segments are
discarded by the component iterator). -/
def splitOnSlash : List Char → List (List Char)
  | [] => [[]]
  | c :: cs =>
    if c == '/' then [] :: splitOnSlash cs
    else
      match splitOnSlash cs with
      | [] => [[c]]
      | g :: gs => (c :: g) :: gs

/-- Does the string end with the two characters `:` `\`?  This is the
`name.ends_with(":\\")` test of `add_path_to_tree`. -/
def endsWithDriveSuffix (s : String) : Bool :=
  match s.data.reverse with
  | '\\' :: ':' :: _ => true
  | _ => false

/-- Embeds `std::path::Path::components()` on a Unix platform (the platform
the repository is built for): the separator is `/`; a leading separator
yields a root component whose name is `/`; empty segments are skipped; a `.`
segment is kept only when it is the first component of a relative path;
`..` segments are kept.  Windows prefix parsing does not occur on Unix. -/
def pathComponentsRaw (path : String) : List String :=
  let hasRoot : Bool := path.data.head? == some '/'
  let segs := ((splitOnSlash path.data).map String.mk).filter (fun s => s ≠ "")
  let segs :=
    match segs with
    | [] => []
    | first :: rest =>
      let restClean := rest.filter (fun s => s ≠ ".")
      if first = "." then (if hasRoot then restClean else "." :: restClean)
      else first :: restClean
  (if hasRoot then ["/"] else []) ++ segs

/-- The component list actually inserted by `add_path_to_tree`: the raw
components of the path with the root marker `/` and any drive-suffix
segment removed (the `filter_map` at the top of `add_path_to_tree`). -/
def componentsOf (path : String) : List String :=
  (pathComponentsRaw path).filter (fun name => !(name == "/" || endsWithDriveSuffix name))

/-- Embeds `path_str.trim().is_empty()`: the string contains only
whitespace characters. -/
def isBlank (s : String) : Bool := s.data.all Char.isWhitespace

/-- ANSI escape wrapping used by the `colored` crate for a simple style:
`colorize code s` renders `s` styled with SGR parameters `code`. -/
def colorize (code : String) (s : String) : String :=
  "\x1b[" ++ code ++ "m" ++ s ++ "\x1b[0m"

namespace TG

/-- `struct Node { status: Option<String>, children: Option<Tree> }` of
`src/tree_generator.rs`; `children = none` is a file, `children = some _`
a directory. -/
inductive Node : Type where
  | mk (status : Option String) (children : Option (List (String × Node))) : Node
deriving Repr

/-- `type Tree = BTreeMap<String, Node>`, as a sorted association list. -/
abbrev Tree := List (String × Node)

/-- Field accessor `node.status`. -/
def Node.status : Node → Option String
  | .mk s _ => s

/-- Field accessor `node.children`. -/
def Node.children : Node → Option Tree
  | .mk _ c => c

/-- `Node::new_file(status)`. -/
def Node.new_file (status : Option String) : Node := .mk status none

/-- `Node::new_directory()`. -/
def Node.new_directory : Node := .mk none (some [])

/-- `enum LineEntry` of `src/tree_generator.rs`. -/
inductive LineEntry : Type where
  | file (s : String) (status : Option String)
  | directory (s : String)
  | connector (s : String)
  | indent (s : String)
deriving Repr, DecidableEq

/-- `pub struct Options`. -/
structure Options : Type where
  compact : Bool
  color : Bool

/-- `BTreeMap::get`-style lookup on the association list. -/
def find? : Tree → String → Option Node
  | [], _ => none
  | (k, v) :: ts, name => if name = k then some v else find? ts name

/-- `tree.entry(name).or_insert_with(default)`: if the key is present the
tree is unchanged, otherwise the default node is inserted at its sorted
position. -/
def entryOrInsert : Tree → String → Node → Tree
  | [], name, dflt => [(name, dflt)]
  | (k, v) :: ts, name, dflt =>
    if strLt name k then (name, dflt) :: (k, v) :: ts
    else if name = k then (k, v) :: ts
    else (k, v) :: entryOrInsert ts name dflt

/-- Replacement of the value stored at an existing key (the in-place
mutation `current_tree = subtree; ...` performs through the map entry). -/
def updateAt : Tree → String → Node → Tree
  | [], _, _ => []
  | (k, v) :: ts, name, newVal =>
    if name = k then (k, newVal) :: ts else (k, v) :: updateAt ts name newVal

/-- The component loop of `add_path_to_tree`: for every component except the
last, ensure a directory child and descend into it (stopping when the name
holds a file); for the last component, ensure a file child carrying the
status.  The imperative descent along the mutable borrow is embedded as
recursion on the remaining components, rebuilding the tree on the way out. -/
def insertComponents (tree : Tree) (components : List String) (status : Option String) : Tree :=
  match components with
  | [] => tree
  | [name] => entryOrInsert tree name (Node.new_file status)
  | name :: rest =>
    let t1 := entryOrInsert tree name Node.new_directory
    match find? t1 name with
    | some (Node.mk st (some subtree)) =>
      updateAt t1 name (Node.mk st (some (insertComponents subtree rest status)))
    | _ => t1

/-- `fn add_path_to_tree(tree, path, status)` of `src/tree_generator.rs`. -/
def add_path_to_tree (tree : Tree) (path : String) (status : Option String) : Tree :=
  insertComponents tree (componentsOf path) status

mutual

/-- The body of the per-entry loop of `fn format_tree_as_entries`: the
`compact` chain-collapsing `while` loop is the recursive first branch
(a directory whose only child is itself a directory folds the child name
into the label and continues); the emit step pushes indent, connector and
label and then recurses into the children of the node finally printed. -/
def format_entry (name : String) (node : Node) (isLast : Bool) (pfx : String) (compact : Bool) :
    List LineEntry :=
  match node with
  | .mk _ (some [(childName, childNode)]) =>
    if compact && (Node.children childNode).isSome then
      format_entry (name ++ "/" ++ childName) childNode isLast pfx compact
    else
      [LineEntry.indent pfx, LineEntry.connector (if isLast then "└── " else "├── "),
        LineEntry.directory name] ++
        format_tree_as_entries [(childName, childNode)]
          (pfx ++ (if isLast then "    " else "│   ")) compact
  | .mk _ (some children) =>
    [LineEntry.indent pfx, LineEntry.connector (if isLast then "└── " else "├── "),
      LineEntry.directory name] ++
      format_tree_as_entries children (pfx ++ (if isLast then "    " else "│   ")) compact
  | .mk status none =>
    [LineEntry.indent pfx, LineEntry.connector (if isLast then "└── " else "├── "),
      LineEntry.file name status]

/-- `fn format_tree_as_entries(tree, prefix, compact)` of
`src/tree_generator.rs`: iterate the map entries in ascending key order,
the last entry known from `iter.peek()`. -/
def format_tree_as_entries (tree : Tree) (pfx : String) (compact : Bool) : List LineEntry :=
  match tree with
  | [] => []
  | (name, node) :: rest =>
    format_entry name node rest.isEmpty pfx compact ++ format_tree_as_entries rest pfx compact

end

/-- `fn apply_color(s, status)`: per-status style table of the `colored`
crate styles used in the source (`yellow` 33, `green` 32, `red` 31,
`cyan` 36, `magenta` 35, `red().bold()` 1;31, `bright_black` 90); any other
status renders the text unstyled (`normal()`). -/
def apply_color (s : String) (status : Option String) : String :=
  match status with
  | some "M" => colorize "33" s
  | some "A" => colorize "32" s
  | some "D" => colorize "31" s
  | some "R" => colorize "36" s
  | some "C" => colorize "35" s
  | some "U" => colorize "1;31" s
  | some "??" => colorize "90" s
  | _ => s

/-- One arm of the `match entry` in `generate_tree_from_paths`: file labels
are status-colored and newline-terminated, directory labels are blue and
newline-terminated, connector and indent fragments are bright-black with no
newline; without color every fragment is the bare text. -/
def render_entry (color : Bool) : LineEntry → String
  | .file s status => (if color then apply_color s status else s) ++ "\n"
  | .directory s => (if color then colorize "34" s else s) ++ "\n"
  | .connector s => if color then colorize "90" s else s
  | .indent s => if color then colorize "90" s else s

/-- The tree-building fold at the top of `generate_tree_from_paths`:
non-blank paths are inserted in input order, an empty status string carried
as `None`. -/
def build_root (paths_with_status : List (String × String)) : Tree :=
  paths_with_status.foldl
    (fun tree ps =>
      if isBlank ps.1 then tree
      else add_path_to_tree tree ps.1 (if ps.2 = "" then none else some ps.2))
    []

/-- `pub fn generate_tree_from_paths` of `src/tree_generator.rs`: build the
root tree, format it as entries, and concatenate the rendered fragments. -/
def generate_tree_from_paths (paths_with_status : List (String × String)) (options : Options) :
    String :=
  String.join
    ((format_tree_as_entries (build_root paths_with_status) "" options.compact).map
      (render_entry options.color))

end TG

namespace M

/-- `enum Node { File, Directory(Tree) }` of `src/main.rs`. -/
inductive Node : Type where
  | file : Node
  | directory (children : List (String × Node)) : Node
deriving Repr

/-- `type Tree = BTreeMap<String, Node>` of `src/main.rs`. -/
abbrev Tree := List (String × Node)

/-- `enum LineEntry` of `src/main.rs` (no status on files). -/
inductive LineEntry : Type where
  | file (s : String)
  | directory (s : String)
  | connector (s : String)
  | indent (s : String)
deriving Repr, DecidableEq

/-- `struct Options` of `src/main.rs` (the clap-parsed flags). -/
structure Options : Type where
  compact : Bool
  color : Bool

/-- Map lookup, as in namespace `TG`. -/
def find? : Tree → String → Option Node
  | [], _ => none
  | (k, v) :: ts, name => if name = k then some v else find? ts name

/-- `tree.entry(name).or_insert(..)` / `or_insert_with(..)`. -/
def entryOrInsert : Tree → String → Node → Tree
  | [], name, dflt => [(name, dflt)]
  | (k, v) :: ts, name, dflt =>
    if strLt name k then (name, dflt) :: (k, v) :: ts
    else if name = k then (k, v) :: ts
    else (k, v) :: entryOrInsert ts name dflt

/-- Value replacement at an existing key. -/
def updateAt : Tree → String → Node → Tree
  | [], _, _ => []
  | (k, v) :: ts, name, newVal =>
    if name = k then (k, newVal) :: ts else (k, v) :: updateAt ts name newVal

/-- The component loop of `add_path_to_tree` of `src/main.rs`: identical to
the `TG` version except that files carry no status. -/
def insertComponents (tree : Tree) (components : List String) : Tree :=
  match components with
  | [] => tree
  | [name] => entryOrInsert tree name Node.file
  | name :: rest =>
    let t1 := entryOrInsert tree name (Node.directory [])
    match find? t1 name with
    | some (Node.directory subtree) =>
      updateAt t1 name (Node.directory (insertComponents subtree rest))
    | _ => t1

/-- `fn add_path_to_tree(tree, path)` of `src/main.rs`. -/
def add_path_to_tree (tree : Tree) (path : String) : Tree :=
  insertComponents tree (componentsOf path)

mutual

/-- Per-entry loop body of `fn format_tree_as_entries` of `src/main.rs`,
with the compact chain loop as the recursive first branch. -/
def format_entry (name : String) (node : Node) (isLast : Bool) (pfx : String) (compact : Bool) :
    List LineEntry :=
  match node with
  | .directory [(childName, childNode)] =>
    if compact && (match childNode with | .directory _ => true | .file => false) then
      format_entry (name ++ "/" ++ childName) childNode isLast pfx compact
    else
      [LineEntry.indent pfx, LineEntry.connector (if isLast then "└── " else "├── "),
        LineEntry.directory name] ++
        format_tree_as_entries [(childName, childNode)]
          (pfx ++ (if isLast then "    " else "│   ")) compact
  | .directory children =>
    [LineEntry.indent pfx, LineEntry.connector (if isLast then "└── " else "├── "),
      LineEntry.directory name] ++
      format_tree_as_entries children (pfx ++ (if isLast then "    " else "│   ")) compact
  | .file =>
    [LineEntry.indent pfx, LineEntry.connector (if isLast then "└── " else "├── "),
      LineEntry.file name]

/-- `fn format_tree_as_entries(tree, prefix, compact)` of `src/main.rs`. -/
def format_tree_as_entries (tree : Tree) (pfx : String) (compact : Bool) : List LineEntry :=
  match tree with
  | [] => []
  | (name, node) :: rest =>
    format_entry name node rest.isEmpty pfx compact ++ format_tree_as_entries rest pfx compact

end

/-- The `match entry` of `generate_tree_from_paths` of `src/main.rs`: file
and directory labels render identically (blue when colored), connectors and
indents bright-black. -/
def render_entry (color : Bool) : LineEntry → String
  | .file s => (if color then colorize "34" s else s) ++ "\n"
  | .directory s => (if color then colorize "34" s else s) ++ "\n"
  | .connector s => if color then colorize "90" s else s
  | .indent s => if color then colorize "90" s else s

/-- The tree-building fold of `generate_tree_from_paths` of `src/main.rs`. -/
def build_root (paths : List String) : Tree :=
  paths.foldl (fun tree path => if isBlank path then tree else add_path_to_tree tree path) []

/-- `fn generate_tree_from_paths(paths, options)` of `src/main.rs`. -/
def generate_tree_from_paths (paths : List String) (options : Options) : String :=
  String.join
    ((format_tree_as_entries (build_root paths) "" options.compact).map
      (render_entry options.color))

end M

/-! ### Analysis-layer definitions (proof devices, not part of the source) -/

namespace TG

/-- Generic sorted-map upsert: look the key up and store the node computed
from the lookup result.  Both branches of the insertion loop of
`add_path_to_tree` are instances of this single-key operation; it is the
device on which the commutation arguments are built. -/
def upsert : Tree → String → (Option Node → Node) → Tree
  | [], name, f => [(name, f none)]
  | (k, v) :: ts, name, f =>
    if strLt name k then (name, f none) :: (k, v) :: ts
    else if name = k then (k, f (some v)) :: ts
    else (k, v) :: upsert ts name f

/-- What one insertion step does at the last component: create the file if
the name is free, otherwise keep whatever node is there. -/
def fileStep (status : Option String) : Option Node → Node
  | none => Node.new_file status
  | some v => v

/-- What one insertion step does at a non-final component: create the
directory and build the remainder inside it if the name is free, rebuild
the remainder inside an existing directory, and leave an existing file
untouched. -/
def dirStep (rest : List String) (status : Option String) : Option Node → Node
  | none => Node.mk none (some (insertComponents [] rest status))
  | some (Node.mk st (some sub)) => Node.mk st (some (insertComponents sub rest status))
  | some (Node.mk st none) => Node.mk st none

/-- Walk a component list down through existing directories, returning the
children map reached at the end. -/
def walk? : Tree → List String → Option Tree
  | t, [] => some t
  | t, k :: rest =>
    match find? t k with
    | some (Node.mk _ (some sub)) => walk? sub rest
    | _ => none

mutual

/-- Erase every status in a node, keeping the shape (names and
file/directory structure). -/
def eraseNode : Node → Node
  | .mk _ none => .mk none none
  | .mk _ (some children) => .mk none (some (eraseTree children))

/-- Erase every status in a tree. -/
def eraseTree : Tree → Tree
  | [] => []
  | (k, v) :: ts => (k, eraseNode v) :: eraseTree ts

end

mutual

/-- The children of a directory node, and recursively of every directory
below it, are in strictly ascending key order. -/
def sortedNode : Node → Bool
  | .mk _ none => true
  | .mk _ (some children) => sortedTree children

/-- Keys at this level strictly ascend and every node is sorted. -/
def sortedTree : Tree → Bool
  | [] => true
  | (k, v) :: ts =>
    sortedNode v && ts.all (fun p => strLt k p.1) && sortedTree ts

end

/-- The child names recorded under a directory entry of the tree (empty
when the name is absent or holds a file). -/
def childKeys (t : Tree) (k : String) : List String :=
  match find? t k with
  | some (Node.mk _ (some sub)) => sub.map Prod.fst
  | _ => []

/-- The ordered fold of `add_path_to_tree` over a sequence of
(path, optional status) pairs, starting from the empty tree. -/
def build (l : List (String × Option String)) : Tree :=
  l.foldl (fun tree p => add_path_to_tree tree p.1 p.2) []

end TG

/-- `a` is a prefix of `b` and differs from it. -/
def properPrefix (a b : List String) : Prop := a ≠ b ∧ b.take a.length = a

instance (a b : List String) : Decidable (properPrefix a b) := by
  unfold properPrefix; infer_instance

mutual

/-- Forget the statuses of a `TG` node, giving the corresponding `M` node. -/
def toMainNode : TG.Node → M.Node
  | .mk _ none => M.Node.file
  | .mk _ (some children) => M.Node.directory (toMainTree children)

/-- Forget the statuses of a `TG` tree. -/
def toMainTree : TG.Tree → M.Tree
  | [] => []
  | (k, v) :: ts => (k, toMainNode v) :: toMainTree ts

end

/-- Forget the status of a `TG` line entry. -/
def stripEntry : TG.LineEntry → M.LineEntry
  | .file s _ => .file s
  | .directory s => .directory s
  | .connector s => .connector s
  | .indent s => .indent s

/-! ### Order lemmas for the embedded string order -/

theorem charToNat_inj {a b : Char} (h : a.toNat = b.toNat) : a = b :=
  Char.ext (UInt32.ext h)

theorem string_data_inj {a b : String} (h : a.data = b.data) : a = b := by
  cases a; cases b; simp_all

theorem charsLt_irrefl (l : List Char) : charsLt l l = false := by
  induction l with
  | nil => rfl
  | cons a as ih => simp [charsLt, ih]

theorem charsLt_asymm {l₁ l₂ : List Char} (h : charsLt l₁ l₂ = true) :
    charsLt l₂ l₁ = false := by
  induction l₁ generalizing l₂ with
  | nil =>
    cases l₂ with
    | nil => simp [charsLt] at h
    | cons b bs => simp [charsLt]
  | cons a as ih =>
    cases l₂ with
    | nil => simp [charsLt] at h
    | cons b bs =>
      simp only [charsLt, Bool.or_eq_true, Bool.and_eq_true, decide_eq_true_eq,
        beq_iff_eq] at h
      rcases h with h | ⟨rfl, hlt⟩
      · have h1 : decide (b.toNat < a.toNat) = false := by simp; omega
        have h2 : (b == a) = false := by
          simp only [beq_eq_false_iff_ne, ne_eq]
          intro hba
          subst hba
          omega
        simp [charsLt, h1, h2]
      · have h1 : decide (a.toNat < a.toNat) = false := by simp
        simp [charsLt, h1, ih hlt]

theorem charsLt_total_eq {l₁ l₂ : List Char} (h₁ : charsLt l₁ l₂ = false)
    (h₂ : charsLt l₂ l₁ = false) : l₁ = l₂ := by
  induction l₁ generalizing l₂ with
  | nil =>
    cases l₂ with
    | nil => rfl
    | cons b bs => simp [charsLt] at h₁
  | cons a as ih =>
    cases l₂ with
    | nil => simp [charsLt] at h₂
    | cons b bs =>
      simp only [charsLt, Bool.or_eq_false_iff, Bool.and_eq_false_iff,
        decide_eq_false_iff_not, beq_eq_false_iff_ne, ne_eq] at h₁ h₂
      obtain ⟨hab, h₁'⟩ := h₁
      obtain ⟨hba, h₂'⟩ := h₂
      have hEq : a = b := charToNat_inj (by omega)
      subst hEq
      rcases h₁' with h | h
      · exact absurd rfl h
      · rcases h₂' with h' | h'
        · exact absurd rfl h'
        · rw [ih h h']

theorem charsLt_trans {l₁ l₂ l₃ : List Char} (h₁ : charsLt l₁ l₂ = true)
    (h₂ : charsLt l₂ l₃ = true) : charsLt l₁ l₃ = true := by
  induction l₁ generalizing l₂ l₃ with
  | nil =>
    cases l₃ with
    | nil =>
      cases l₂ with
      | nil => simp [charsLt] at h₁
      | cons b bs => simp [charsLt] at h₂
    | cons c cs => simp [charsLt]
  | cons a as ih =>
    cases l₂ with
    | nil => simp [charsLt] at h₁
    | cons b bs =>
      cases l₃ with
      | nil => simp [charsLt] at h₂
      | cons c cs =>
        simp only [charsLt, Bool.or_eq_true, Bool.and_eq_true, decide_eq_true_eq,
          beq_iff_eq] at h₁ h₂ ⊢
        rcases h₁ with h₁ | ⟨rfl, h₁⟩
        · rcases h₂ with h₂ | ⟨rfl, h₂⟩
          · left; omega
          · left; exact h₁
        · rcases h₂ with h₂ | ⟨rfl, h₂⟩
          · left; exact h₂
          · right; exact ⟨rfl, ih h₁ h₂⟩

theorem strLt_irrefl (a : String) : strLt a a = false := charsLt_irrefl a.data

theorem strLt_asymm {a b : String} (h : strLt a b = true) : strLt b a = false :=
  charsLt_asymm h

theorem strLt_total_eq {a b : String} (h₁ : strLt a b = false) (h₂ : strLt b a = false) :
    a = b :=
  string_data_inj (charsLt_total_eq h₁ h₂)

theorem strLt_trans {a b c : String} (h₁ : strLt a b = true) (h₂ : strLt b c = true) :
    strLt a c = true :=
  charsLt_trans h₁ h₂

theorem strLt_ne {a b : String} (h : strLt a b = true) : a ≠ b := by
  intro hEq; subst hEq; rw [strLt_irrefl] at h; exact absurd h (by simp)

/-! ### Map-operation lemmas -/

namespace TG

theorem find?_mem_keys {t : Tree} {k : String} {v : Node} (h : find? t k = some v) :
    k ∈ t.map Prod.fst := by
  induction t with
  | nil => simp [find?] at h
  | cons p ts ih =>
    obtain ⟨k', v'⟩ := p
    rw [find?] at h
    by_cases hk : k = k'
    · subst hk; simp
    · rw [if_neg hk] at h
      simpa using Or.inr (ih h)

theorem strLt_of_not_of_ne {a b : String} (h : strLt a b = false) (hne : a ≠ b) :
    strLt b a = true := by
  cases hba : strLt b a with
  | true => rfl
  | false => exact absurd (strLt_total_eq h hba) hne


theorem insertComponents_nil (t : Tree) (st : Option String) :
    insertComponents t [] st = t := rfl

theorem insertComponents_one (t : Tree) (k : String) (st : Option String) :
    insertComponents t [k] st = entryOrInsert t k (Node.new_file st) := rfl

theorem insertComponents_two (t : Tree) (k r : String) (rs : List String)
    (st : Option String) :
    insertComponents t (k :: r :: rs) st =
      match find? (entryOrInsert t k Node.new_directory) k with
      | some (Node.mk st' (some subtree)) =>
        updateAt (entryOrInsert t k Node.new_directory) k
          (Node.mk st' (some (insertComponents subtree (r :: rs) st)))
      | _ => entryOrInsert t k Node.new_directory := rfl

theorem entryOrInsert_of_find?_some {t : Tree} {k : String} {v : Node}
    (hs : sortedTree t = true) (h : find? t k = some v) (d : Node) :
    entryOrInsert t k d = t := by
  induction t with
  | nil => simp [find?] at h
  | cons p ts ih =>
    obtain ⟨k', v'⟩ := p
    rw [find?] at h
    rw [sortedTree, Bool.and_eq_true, Bool.and_eq_true] at hs
    obtain ⟨⟨_, hall⟩, hsts⟩ := hs
    by_cases hk : k = k'
    · subst hk
      rw [entryOrInsert, if_neg (by rw [strLt_irrefl]; simp), if_pos rfl]
    · rw [if_neg hk] at h
      have hmem : k ∈ ts.map Prod.fst := find?_mem_keys h
      have hlt : strLt k' k = true := by
        rw [List.all_eq_true] at hall
        obtain ⟨p₀, hp, hfst⟩ := List.mem_map.mp hmem
        have h3 : strLt k' p₀.1 = true := hall _ hp
        rw [hfst] at h3
        exact h3
      rw [entryOrInsert, if_neg (by rw [strLt_asymm hlt]; simp), if_neg hk,
        ih hsts h]

theorem updateAt_of_find?_self {t : Tree} {k : String} {v : Node}
    (h : find? t k = some v) : updateAt t k v = t := by
  induction t with
  | nil => rfl
  | cons p ts ih =>
    obtain ⟨k', v'⟩ := p
    rw [find?] at h
    by_cases hk : k = k'
    · subst hk
      rw [if_pos rfl] at h
      obtain rfl : v' = v := by injection h
      rw [updateAt, if_pos rfl]
    · rw [if_neg hk] at h
      rw [updateAt, if_neg hk, ih h]

theorem upsert_upsert_same (t : Tree) (k : String) (f g : Option Node → Node) :
    upsert (upsert t k f) k g = upsert t k (fun v => g (some (f v))) := by
  induction t with
  | nil => rw [upsert, upsert, upsert, if_neg (by rw [strLt_irrefl]; simp), if_pos rfl]
  | cons p ts ih =>
    obtain ⟨k', v'⟩ := p
    by_cases h1 : strLt k k' = true
    · rw [upsert, if_pos h1, upsert, if_neg (by rw [strLt_irrefl]; simp), if_pos rfl,
        upsert, if_pos h1]
    · by_cases h2 : k = k'
      · subst h2
        rw [upsert, if_neg (by simp [h1]), if_pos rfl, upsert,
          if_neg (by simp [h1]), if_pos rfl, upsert, if_neg (by simp [h1]), if_pos rfl]
      · rw [upsert, if_neg (by simp [h1]), if_neg h2, upsert,
          if_neg (by simp [h1]), if_neg h2, upsert, if_neg (by simp [h1]), if_neg h2, ih]

theorem upsert_comm {k₁ k₂ : String} (hne : k₁ ≠ k₂) (t : Tree)
    (f₁ f₂ : Option Node → Node) :
    upsert (upsert t k₁ f₁) k₂ f₂ = upsert (upsert t k₂ f₂) k₁ f₁ := by
  have hne' : k₂ ≠ k₁ := Ne.symm hne
  induction t with
  | nil =>
    by_cases h21 : strLt k₂ k₁ = true
    · have h12 : strLt k₁ k₂ = false := strLt_asymm h21
      simp [upsert, h21, h12, hne, hne']
    · have h12 : strLt k₁ k₂ = true := strLt_of_not_of_ne (by simpa using h21) hne'
      have h21' : strLt k₂ k₁ = false := by simpa using h21
      simp [upsert, h12, h21', hne, hne']
  | cons p ts ih =>
    obtain ⟨k', v'⟩ := p
    by_cases ha1 : strLt k₁ k' = true
    · by_cases ha2 : strLt k₂ k' = true
      · by_cases h21 : strLt k₂ k₁ = true
        · have h12 : strLt k₁ k₂ = false := strLt_asymm h21
          simp [upsert, ha1, ha2, h21, h12, hne, hne']
        · have h12 : strLt k₁ k₂ = true := strLt_of_not_of_ne (by simpa using h21) hne'
          have h21' : strLt k₂ k₁ = false := by simpa using h21
          simp [upsert, ha1, ha2, h12, h21', hne, hne']
      · by_cases hb2 : k₂ = k'
        · subst hb2
          have h21 : strLt k₂ k₁ = false := strLt_asymm ha1
          simp [upsert, ha1, ha2, h21, hne, hne', strLt_irrefl]
        · have hk'2 : strLt k' k₂ = true :=
            strLt_of_not_of_ne (by simpa using ha2) hb2
          have h12 : strLt k₁ k₂ = true := strLt_trans ha1 hk'2
          have h21 : strLt k₂ k₁ = false := strLt_asymm h12
          simp [upsert, ha1, ha2, hb2, h12, h21, hne, hne']
    · by_cases hb1 : k₁ = k'
      · subst hb1
        by_cases ha2 : strLt k₂ k₁ = true
        · have h12 : strLt k₁ k₂ = false := strLt_asymm ha2
          simp [upsert, ha1, ha2, h12, hne, hne', strLt_irrefl]
        · have ha2' : strLt k₂ k₁ = false := by simpa using ha2
          simp [upsert, ha1, ha2', hne, hne', strLt_irrefl]
      · by_cases ha2 : strLt k₂ k' = true
        · have hk'1 : strLt k' k₁ = true :=
            strLt_of_not_of_ne (by simpa using ha1) hb1
          have h21 : strLt k₂ k₁ = true := strLt_trans ha2 hk'1
          have h12 : strLt k₁ k₂ = false := strLt_asymm h21
          simp [upsert, ha1, ha2, hb1, h12, h21, hne, hne']
        · by_cases hb2 : k₂ = k'
          · subst hb2
            simp [upsert, ha1, ha2, hb1, hne, hne', strLt_irrefl]
          · simp [upsert, ha1, ha2, hb1, hb2, ih]

theorem insertComponents_single (t : Tree) (k : String) (st : Option String) :
    insertComponents t [k] st = upsert t k (fileStep st) := by
  induction t with
  | nil => rfl
  | cons p ts ih =>
    obtain ⟨k', v'⟩ := p
    rw [insertComponents_one] at ih ⊢
    by_cases h1 : strLt k k' = true
    · rw [entryOrInsert, if_pos h1, upsert, if_pos h1]; rfl
    · by_cases h2 : k = k'
      · subst h2
        rw [entryOrInsert, if_neg (by simp [h1]), if_pos rfl,
          upsert, if_neg (by simp [h1]), if_pos rfl]; rfl
      · rw [entryOrInsert, if_neg (by simp [h1]), if_neg h2,
          upsert, if_neg (by simp [h1]), if_neg h2, ih]

theorem insertComponents_cons (t : Tree) (k r : String) (rs : List String)
    (st : Option String) :
    insertComponents t (k :: r :: rs) st = upsert t k (dirStep (r :: rs) st) := by
  induction t with
  | nil =>
    rw [insertComponents_two]
    simp only [entryOrInsert, find?, if_pos rfl, Node.new_directory, updateAt]
    rw [upsert]
    rfl
  | cons p ts ih =>
    obtain ⟨k', v'⟩ := p
    rw [insertComponents_two]
    by_cases h1 : strLt k k' = true
    · rw [upsert, if_pos h1]
      simp only [entryOrInsert, if_pos h1, Node.new_directory, find?, if_pos rfl, updateAt]
      rfl
    · by_cases h2 : k = k'
      · subst h2
        rw [upsert, if_neg (by simp [h1]), if_pos rfl]
        simp only [entryOrInsert, if_neg (by simp [h1] : ¬ strLt k k = true), if_pos rfl,
          find?, Node.new_directory]
        obtain ⟨vst, vch⟩ := v'
        cases vch with
        | none => rfl
        | some sub => simp only [updateAt, if_pos rfl]; rfl
      · have ht1 : entryOrInsert ((k', v') :: ts) k Node.new_directory =
            (k', v') :: entryOrInsert ts k Node.new_directory := by
          rw [entryOrInsert, if_neg (by simp [h1]), if_neg h2]
        rw [ht1, upsert, if_neg (by simp [h1]), if_neg h2, ← ih, insertComponents_two]
        rw [find?, if_neg h2]
        cases hfind : find? (entryOrInsert ts k Node.new_directory) k with
        | none => simp only
        | some v =>
          obtain ⟨vst, vch⟩ := v
          cases vch with
          | none => simp only
          | some sub =>
            simp only [updateAt, if_neg h2]

end TG

/-! ### First-writer-wins lemmas -/

namespace TG

theorem dirStep_absorb (r : String) (rs : List String) (s₁ s₂ : Option String)
    (ih : ∀ t : Tree, insertComponents (insertComponents t (r :: rs) s₁) (r :: rs) s₂ =
      insertComponents t (r :: rs) s₁) (v : Option Node) :
    dirStep (r :: rs) s₂ (some (dirStep (r :: rs) s₁ v)) = dirStep (r :: rs) s₁ v := by
  cases v with
  | none => simp only [dirStep]; rw [ih]
  | some w =>
    obtain ⟨wst, wch⟩ := w
    cases wch with
    | none => rfl
    | some sub => simp only [dirStep]; rw [ih]

theorem insertComponents_twice (t : Tree) (segs : List String) (s₁ s₂ : Option String) :
    insertComponents (insertComponents t segs s₁) segs s₂ = insertComponents t segs s₁ := by
  induction segs generalizing t with
  | nil => rfl
  | cons k rest ih =>
    cases rest with
    | nil =>
      have hstep : (fun v => fileStep s₂ (some (fileStep s₁ v))) = fileStep s₁ := by
        funext v
        cases v <;> rfl
      rw [insertComponents_single, insertComponents_single, upsert_upsert_same, hstep]
    | cons r rs =>
      have hstep : (fun v => dirStep (r :: rs) s₂ (some (dirStep (r :: rs) s₁ v))) =
          dirStep (r :: rs) s₁ := by
        funext v
        exact dirStep_absorb r rs s₁ s₂ (fun t' => ih t') v
      rw [insertComponents_cons, insertComponents_cons, upsert_upsert_same, hstep]

theorem strLt_head_of_find? {k' k : String} {ts : Tree} {v : Node}
    (hall : ts.all (fun p => strLt k' p.1) = true) (h : find? ts k = some v) :
    strLt k' k = true := by
  rw [List.all_eq_true] at hall
  obtain ⟨p₀, hp, hfst⟩ := List.mem_map.mp (find?_mem_keys h)
  have h3 : strLt k' p₀.1 = true := hall _ hp
  rw [hfst] at h3
  exact h3

theorem sortedNode_of_find? {t : Tree} {k : String} {v : Node} (hs : sortedTree t = true)
    (h : find? t k = some v) : sortedNode v = true := by
  induction t with
  | nil => simp [find?] at h
  | cons p ts ih =>
    obtain ⟨k', v'⟩ := p
    rw [find?] at h
    rw [sortedTree, Bool.and_eq_true, Bool.and_eq_true] at hs
    obtain ⟨⟨hv', _⟩, hsts⟩ := hs
    by_cases hk : k = k'
    · rw [if_pos hk] at h
      obtain rfl : v' = v := by injection h
      exact hv'
    · rw [if_neg hk] at h
      exact ih hsts h

theorem upsert_stable {t : Tree} {k : String} {v : Node} {f : Option Node → Node}
    (hs : sortedTree t = true) (h : find? t k = some v) (hf : f (some v) = v) :
    upsert t k f = t := by
  induction t with
  | nil => simp [find?] at h
  | cons p ts ih =>
    obtain ⟨k', v'⟩ := p
    rw [find?] at h
    rw [sortedTree, Bool.and_eq_true, Bool.and_eq_true] at hs
    obtain ⟨⟨_, hall⟩, hsts⟩ := hs
    by_cases hk : k = k'
    · subst hk
      rw [if_pos rfl] at h
      obtain rfl : v' = v := by injection h
      rw [upsert, if_neg (by rw [strLt_irrefl]; simp), if_pos rfl, hf]
    · rw [if_neg hk] at h
      have hlt : strLt k' k = true := strLt_head_of_find? hall h
      rw [upsert, if_neg (by rw [strLt_asymm hlt]; simp), if_neg hk, ih hsts h]

theorem sortedTree_of_walk? {pre : List String} {t sub : Tree}
    (hs : sortedTree t = true) (hw : walk? t pre = some sub) : sortedTree sub = true := by
  induction pre generalizing t with
  | nil =>
    rw [walk?] at hw
    obtain rfl : t = sub := by injection hw
    exact hs
  | cons p pre' ih =>
    rw [walk?] at hw
    cases hfind : find? t p with
    | none => rw [hfind] at hw; simp at hw
    | some w =>
      obtain ⟨wst, wch⟩ := w
      cases wch with
      | none => rw [hfind] at hw; simp at hw
      | some m =>
        rw [hfind] at hw
        simp only at hw
        have hsm : sortedTree m = true := by
          have := sortedNode_of_find? hs hfind
          simpa [sortedNode] using this
        exact ih hsm hw

theorem insertComponents_walk_stable {pre : List String} {t sub : Tree} {tail : List String}
    {s : Option String} (hs : sortedTree t = true) (hw : walk? t pre = some sub)
    (htail : tail ≠ []) (hstable : insertComponents sub tail s = sub) :
    insertComponents t (pre ++ tail) s = t := by
  induction pre generalizing t with
  | nil =>
    rw [walk?] at hw
    obtain rfl : t = sub := by injection hw
    simpa using hstable
  | cons p pre' ih =>
    rw [walk?] at hw
    cases hfind : find? t p with
    | none => rw [hfind] at hw; simp at hw
    | some w =>
      obtain ⟨wst, wch⟩ := w
      cases wch with
      | none => rw [hfind] at hw; simp at hw
      | some m =>
        rw [hfind] at hw
        simp only at hw
        have hsm : sortedTree m = true := by
          have := sortedNode_of_find? hs hfind
          simpa [sortedNode] using this
        have hmid : insertComponents m (pre' ++ tail) s = m := ih hsm hw
        have hne : pre' ++ tail ≠ [] := by
          cases pre' with
          | nil => simpa using htail
          | cons a as => simp
        obtain ⟨r, rs, hrr⟩ : ∃ r rs, pre' ++ tail = r :: rs := by
          cases hsplit : pre' ++ tail with
          | nil => exact absurd hsplit hne
          | cons r rs => exact ⟨r, rs, rfl⟩
        show insertComponents t (p :: (pre' ++ tail)) s = t
        rw [hrr, insertComponents_cons]
        apply upsert_stable hs hfind
        show dirStep (r :: rs) s (some (Node.mk wst (some m))) = Node.mk wst (some m)
        simp only [dirStep]
        rw [← hrr, hmid]

end TG

/-! ### Sortedness preservation -/

namespace TG

theorem mem_upsert {t : Tree} {k : String} {f : Option Node → Node} {p : String × Node}
    (h : p ∈ upsert t k f) : p.1 = k ∨ p ∈ t := by
  induction t with
  | nil =>
    rw [upsert] at h
    rcases List.mem_singleton.mp h with rfl
    left; rfl
  | cons q ts ih =>
    obtain ⟨k', v'⟩ := q
    by_cases h1 : strLt k k' = true
    · rw [upsert, if_pos h1] at h
      rcases List.mem_cons.mp h with rfl | hrest
      · left; rfl
      · right; exact hrest
    · by_cases h2 : k = k'
      · subst h2
        rw [upsert, if_neg (by simp [h1]), if_pos rfl] at h
        rcases List.mem_cons.mp h with rfl | hrest
        · left; rfl
        · right; exact List.mem_cons_of_mem _ hrest
      · rw [upsert, if_neg (by simp [h1]), if_neg h2] at h
        rcases List.mem_cons.mp h with rfl | hrest
        · right; exact List.mem_cons_self _ _
        · rcases ih hrest with hk | hmem
          · left; exact hk
          · right; exact List.mem_cons_of_mem _ hmem

theorem all_fst_updateAt (t : Tree) (k : String) (nv : Node) (q : String → Bool) :
    (updateAt t k nv).all (fun p => q p.1) = t.all (fun p => q p.1) := by
  induction t with
  | nil => rfl
  | cons p ts ih =>
    obtain ⟨k', v'⟩ := p
    by_cases hk : k = k'
    · subst hk
      rw [updateAt, if_pos rfl]
      simp
    · rw [updateAt, if_neg hk]
      simp only [List.all_cons, ih]

theorem sorted_upsert {t : Tree} {k : String} {f : Option Node → Node}
    (hs : sortedTree t = true)
    (hnone : sortedNode (f none) = true)
    (hsome : ∀ v, sortedNode v = true → sortedNode (f (some v)) = true) :
    sortedTree (upsert t k f) = true := by
  induction t with
  | nil =>
    rw [upsert, sortedTree, sortedTree]
    simp [hnone]
  | cons p ts ih =>
    obtain ⟨k', v'⟩ := p
    rw [sortedTree, Bool.and_eq_true, Bool.and_eq_true] at hs
    obtain ⟨⟨hv', hall⟩, hts⟩ := hs
    by_cases h1 : strLt k k' = true
    · rw [upsert, if_pos h1, sortedTree, Bool.and_eq_true, Bool.and_eq_true]
      refine ⟨⟨hnone, ?_⟩, ?_⟩
      · rw [List.all_eq_true]
        intro p hp
        rcases List.mem_cons.mp hp with rfl | hmem
        · exact h1
        · rw [List.all_eq_true] at hall
          exact strLt_trans h1 (hall _ hmem)
      · rw [sortedTree, Bool.and_eq_true, Bool.and_eq_true]
        exact ⟨⟨hv', hall⟩, hts⟩
    · by_cases h2 : k = k'
      · subst h2
        rw [upsert, if_neg (by simp [h1]), if_pos rfl, sortedTree,
          Bool.and_eq_true, Bool.and_eq_true]
        exact ⟨⟨hsome v' hv', hall⟩, hts⟩
      · have hlt : strLt k' k = true := strLt_of_not_of_ne (by simpa using h1) h2
        rw [upsert, if_neg (by simp [h1]), if_neg h2, sortedTree,
          Bool.and_eq_true, Bool.and_eq_true]
        refine ⟨⟨hv', ?_⟩, ih hts⟩
        rw [List.all_eq_true]
        intro p hp
        rcases mem_upsert hp with hk | hmem
        · rw [hk]; exact hlt
        · rw [List.all_eq_true] at hall
          exact hall _ hmem

theorem sorted_insertComponents (segs : List String) :
    ∀ {t : Tree} (s : Option String), sortedTree t = true →
      sortedTree (insertComponents t segs s) = true := by
  induction segs with
  | nil => intro t s hs; exact hs
  | cons k rest ih =>
    intro t s hs
    cases rest with
    | nil =>
      rw [insertComponents_single]
      apply sorted_upsert hs
      · rfl
      · intro v hv; exact hv
    | cons r rs =>
      rw [insertComponents_cons]
      apply sorted_upsert hs
      · show sortedTree (insertComponents [] (r :: rs) s) = true
        exact ih s rfl
      · intro v hv
        obtain ⟨vst, vch⟩ := v
        cases vch with
        | none => exact hv
        | some sub =>
          show sortedTree (insertComponents sub (r :: rs) s) = true
          exact ih s (by simpa [sortedNode] using hv)

theorem sorted_add_path_to_tree {t : Tree} (path : String) (s : Option String)
    (hs : sortedTree t = true) : sortedTree (add_path_to_tree t path s) = true :=
  sorted_insertComponents (componentsOf path) s hs

end TG

/-! ### Status erasure and insertion-order commutation -/

namespace TG

theorem find?_eraseTree (t : Tree) (k : String) :
    find? (eraseTree t) k = (find? t k).map eraseNode := by
  induction t with
  | nil => rfl
  | cons p ts ih =>
    obtain ⟨k', v'⟩ := p
    rw [eraseTree]
    by_cases hk : k = k'
    · subst hk
      rw [find?, if_pos rfl, find?, if_pos rfl]
      rfl
    · rw [find?, if_neg hk, find?, if_neg hk, ih]

theorem eraseTree_entryOrInsert (t : Tree) (k : String) (d : Node) :
    eraseTree (entryOrInsert t k d) = entryOrInsert (eraseTree t) k (eraseNode d) := by
  induction t with
  | nil => rfl
  | cons p ts ih =>
    obtain ⟨k', v'⟩ := p
    by_cases h1 : strLt k k' = true
    · rw [entryOrInsert, if_pos h1]
      simp only [eraseTree]
      rw [entryOrInsert, if_pos h1]
    · by_cases h2 : k = k'
      · subst h2
        rw [entryOrInsert, if_neg (by simp [h1]), if_pos rfl]
        simp only [eraseTree]
        rw [entryOrInsert, if_neg (by simp [h1]), if_pos rfl]
      · rw [entryOrInsert, if_neg (by simp [h1]), if_neg h2]
        simp only [eraseTree]
        rw [entryOrInsert, if_neg (by simp [h1]), if_neg h2, ih]

theorem eraseTree_updateAt (t : Tree) (k : String) (nv : Node) :
    eraseTree (updateAt t k nv) = updateAt (eraseTree t) k (eraseNode nv) := by
  induction t with
  | nil => rfl
  | cons p ts ih =>
    obtain ⟨k', v'⟩ := p
    by_cases hk : k = k'
    · subst hk
      rw [updateAt, if_pos rfl]
      simp only [eraseTree]
      rw [updateAt, if_pos rfl]
    · rw [updateAt, if_neg hk]
      simp only [eraseTree]
      rw [updateAt, if_neg hk, ih]

theorem erase_insertComponents (segs : List String) :
    ∀ (t : Tree) (s : Option String),
      eraseTree (insertComponents t segs s) = insertComponents (eraseTree t) segs none := by
  induction segs with
  | nil => intro t s; rfl
  | cons k rest ih =>
    intro t s
    cases rest with
    | nil =>
      rw [insertComponents_one, insertComponents_one, eraseTree_entryOrInsert]
      rfl
    | cons r rs =>
      rw [insertComponents_two, insertComponents_two]
      have hEO : eraseTree (entryOrInsert t k Node.new_directory) =
          entryOrInsert (eraseTree t) k Node.new_directory := by
        rw [eraseTree_entryOrInsert]
        rfl
      cases hfind : find? (entryOrInsert t k Node.new_directory) k with
      | none =>
        have hf2 : find? (entryOrInsert (eraseTree t) k Node.new_directory) k = none := by
          rw [← hEO, find?_eraseTree, hfind]
          rfl
        simp only [hfind, hf2]
        exact hEO
      | some w =>
        obtain ⟨wst, wch⟩ := w
        cases wch with
        | none =>
          have hf2 : find? (entryOrInsert (eraseTree t) k Node.new_directory) k =
              some (Node.mk none none) := by
            rw [← hEO, find?_eraseTree, hfind]
            rfl
          simp only [hfind, hf2]
          exact hEO
        | some sub =>
          have hf2 : find? (entryOrInsert (eraseTree t) k Node.new_directory) k =
              some (Node.mk none (some (eraseTree sub))) := by
            rw [← hEO, find?_eraseTree, hfind]
            rfl
          simp only [hfind, hf2]
          rw [eraseTree_updateAt, hEO]
          have hnode : eraseNode (Node.mk wst (some (insertComponents sub (r :: rs) s))) =
              Node.mk none (some (insertComponents (eraseTree sub) (r :: rs) none)) := by
            show Node.mk none (some (eraseTree (insertComponents sub (r :: rs) s))) = _
            rw [ih sub s]
          rw [hnode]

theorem dirStep_swap (r₁ : String) (rs₁ : List String) (r₂ : String) (rs₂ : List String)
    (hcomm : ∀ t : Tree,
      insertComponents (insertComponents t (r₁ :: rs₁) none) (r₂ :: rs₂) none =
        insertComponents (insertComponents t (r₂ :: rs₂) none) (r₁ :: rs₁) none)
    (v : Option Node) :
    dirStep (r₂ :: rs₂) none (some (dirStep (r₁ :: rs₁) none v)) =
      dirStep (r₁ :: rs₁) none (some (dirStep (r₂ :: rs₂) none v)) := by
  cases v with
  | none => simp only [dirStep]; rw [hcomm]
  | some w =>
    obtain ⟨wst, wch⟩ := w
    cases wch with
    | none => rfl
    | some sub => simp only [dirStep]; rw [hcomm]

end TG

theorem properPrefix_cons (x : String) (a b : List String) :
    properPrefix (x :: a) (x :: b) ↔ properPrefix a b := by
  unfold properPrefix
  rw [List.length_cons, List.take_succ_cons]
  simp

theorem properPrefix_single_cons (a b₂ : String) (bs₂ : List String) :
    properPrefix [a] (a :: b₂ :: bs₂) := by
  unfold properPrefix
  simp

namespace TG

theorem insertComponents_comm (s₁ : List String) :
    ∀ (s₂ : List String), ¬ properPrefix s₁ s₂ → ¬ properPrefix s₂ s₁ →
      ∀ (t : Tree), insertComponents (insertComponents t s₁ none) s₂ none =
        insertComponents (insertComponents t s₂ none) s₁ none := by
  induction s₁ with
  | nil => intro s₂ _ _ t; rfl
  | cons a as ih =>
    intro s₂ h₁₂ h₂₁ t
    cases s₂ with
    | nil => rfl
    | cons b bs =>
      by_cases hab : a = b
      · subst hab
        cases as with
        | nil =>
          cases bs with
          | nil => rfl
          | cons b₂ bs₂ => exact absurd (properPrefix_single_cons a b₂ bs₂) h₁₂
        | cons a₂ as₂ =>
          cases bs with
          | nil => exact absurd (properPrefix_single_cons a a₂ as₂) h₂₁
          | cons b₂ bs₂ =>
            have h₁₂' : ¬ properPrefix (a₂ :: as₂) (b₂ :: bs₂) := fun h =>
              h₁₂ ((properPrefix_cons a _ _).mpr h)
            have h₂₁' : ¬ properPrefix (b₂ :: bs₂) (a₂ :: as₂) := fun h =>
              h₂₁ ((properPrefix_cons a _ _).mpr h)
            have hcomm := fun t' => ih (b₂ :: bs₂) h₁₂' h₂₁' t'
            have hstep : (fun v => dirStep (b₂ :: bs₂) none (some (dirStep (a₂ :: as₂) none v)))
                = (fun v => dirStep (a₂ :: as₂) none (some (dirStep (b₂ :: bs₂) none v))) := by
              funext v
              exact dirStep_swap a₂ as₂ b₂ bs₂ hcomm v
            rw [insertComponents_cons, insertComponents_cons, insertComponents_cons,
              insertComponents_cons, upsert_upsert_same, upsert_upsert_same, hstep]
      · cases as with
        | nil =>
          cases bs with
          | nil =>
            rw [insertComponents_single, insertComponents_single, insertComponents_single,
              insertComponents_single]
            exact upsert_comm hab t _ _
          | cons b₂ bs₂ =>
            rw [insertComponents_single, insertComponents_cons, insertComponents_cons,
              insertComponents_single]
            exact upsert_comm hab t _ _
        | cons a₂ as₂ =>
          cases bs with
          | nil =>
            rw [insertComponents_cons, insertComponents_single, insertComponents_single,
              insertComponents_cons]
            exact upsert_comm hab t _ _
          | cons b₂ bs₂ =>
            rw [insertComponents_cons, insertComponents_cons, insertComponents_cons,
              insertComponents_cons]
            exact upsert_comm hab t _ _

theorem erase_build_fold (l : List (String × Option String)) :
    ∀ t : Tree, eraseTree (l.foldl (fun tr p => add_path_to_tree tr p.1 p.2) t) =
      l.foldl (fun tr p => insertComponents tr (componentsOf p.1) none) (eraseTree t) := by
  induction l with
  | nil => intro t; rfl
  | cons p ps ih =>
    intro t
    rw [List.foldl_cons, List.foldl_cons, ih]
    congr 1
    exact erase_insertComponents (componentsOf p.1) t p.2

end TG

/-! ### Renderer unfolding lemmas -/

theorem string_join_nil : String.join [] = "" := rfl

theorem string_join_cons (s : String) (l : List String) :
    String.join (s :: l) = s ++ String.join l := by
  apply string_data_inj
  simp

namespace TG

theorem format_entry_chain (name childName : String) (childNode : Node)
    (status : Option String) (isLast : Bool) (pfx : String) (compact : Bool)
    (h : (compact && (Node.children childNode).isSome) = true) :
    format_entry name (Node.mk status (some [(childName, childNode)])) isLast pfx compact =
      format_entry (name ++ "/" ++ childName) childNode isLast pfx compact := by
  simp only [format_entry]
  rw [if_pos h]

theorem format_entry_stop (name childName : String) (childNode : Node)
    (status : Option String) (isLast : Bool) (pfx : String) (compact : Bool)
    (h : (compact && (Node.children childNode).isSome) = false) :
    format_entry name (Node.mk status (some [(childName, childNode)])) isLast pfx compact =
      [LineEntry.indent pfx, LineEntry.connector (if isLast then "└── " else "├── "),
        LineEntry.directory name] ++
        format_tree_as_entries [(childName, childNode)]
          (pfx ++ (if isLast then "    " else "│   ")) compact := by
  simp only [format_entry]
  rw [if_neg (by simp [h])]

theorem format_entry_dir_nil (name : String) (status : Option String) (isLast : Bool)
    (pfx : String) (compact : Bool) :
    format_entry name (Node.mk status (some [])) isLast pfx compact =
      [LineEntry.indent pfx, LineEntry.connector (if isLast then "└── " else "├── "),
        LineEntry.directory name] ++
        format_tree_as_entries [] (pfx ++ (if isLast then "    " else "│   ")) compact := by
  simp only [format_entry]

theorem format_entry_dir_two (name : String) (status : Option String)
    (p q : String × Node) (cs : List (String × Node)) (isLast : Bool) (pfx : String)
    (compact : Bool) :
    format_entry name (Node.mk status (some (p :: q :: cs))) isLast pfx compact =
      [LineEntry.indent pfx, LineEntry.connector (if isLast then "└── " else "├── "),
        LineEntry.directory name] ++
        format_tree_as_entries (p :: q :: cs)
          (pfx ++ (if isLast then "    " else "│   ")) compact := by
  simp only [format_entry]

theorem format_entry_file (name : String) (status : Option String) (isLast : Bool)
    (pfx : String) (compact : Bool) :
    format_entry name (Node.mk status none) isLast pfx compact =
      [LineEntry.indent pfx, LineEntry.connector (if isLast then "└── " else "├── "),
        LineEntry.file name status] := by
  simp only [format_entry]

theorem format_tree_nil (pfx : String) (compact : Bool) :
    format_tree_as_entries [] pfx compact = [] := rfl

theorem format_tree_cons (name : String) (node : Node) (rest : Tree) (pfx : String)
    (compact : Bool) :
    format_tree_as_entries ((name, node) :: rest) pfx compact =
      format_entry name node rest.isEmpty pfx compact ++
        format_tree_as_entries rest pfx compact := by
  simp only [format_tree_as_entries]

end TG

namespace M

theorem format_entry_chain_m (name childName : String) (mch : List (String × Node))
    (isLast : Bool) (pfx : String) :
    format_entry name (Node.directory [(childName, Node.directory mch)]) isLast pfx true =
      format_entry (name ++ "/" ++ childName) (Node.directory mch) isLast pfx true := by
  simp only [format_entry]
  rw [if_pos (show (true && true) = true from rfl)]

theorem format_entry_stop_m (name childName : String) (childNode : Node)
    (isLast : Bool) (pfx : String) (compact : Bool)
    (h : (compact && (match childNode with | .directory _ => true | .file => false)) = false) :
    format_entry name (Node.directory [(childName, childNode)]) isLast pfx compact =
      [LineEntry.indent pfx, LineEntry.connector (if isLast then "└── " else "├── "),
        LineEntry.directory name] ++
        format_tree_as_entries [(childName, childNode)]
          (pfx ++ (if isLast then "    " else "│   ")) compact := by
  simp only [format_entry]
  rw [if_neg (by simp [h])]

theorem format_entry_dir_nil_m (name : String) (isLast : Bool) (pfx : String)
    (compact : Bool) :
    format_entry name (Node.directory []) isLast pfx compact =
      [LineEntry.indent pfx, LineEntry.connector (if isLast then "└── " else "├── "),
        LineEntry.directory name] ++
        format_tree_as_entries [] (pfx ++ (if isLast then "    " else "│   ")) compact := by
  simp only [format_entry]

theorem format_entry_dir_two_m (name : String) (p q : String × Node)
    (cs : List (String × Node)) (isLast : Bool) (pfx : String) (compact : Bool) :
    format_entry name (Node.directory (p :: q :: cs)) isLast pfx compact =
      [LineEntry.indent pfx, LineEntry.connector (if isLast then "└── " else "├── "),
        LineEntry.directory name] ++
        format_tree_as_entries (p :: q :: cs)
          (pfx ++ (if isLast then "    " else "│   ")) compact := by
  simp only [format_entry]

theorem format_entry_file_m (name : String) (isLast : Bool) (pfx : String) (compact : Bool) :
    format_entry name Node.file isLast pfx compact =
      [LineEntry.indent pfx, LineEntry.connector (if isLast then "└── " else "├── "),
        LineEntry.file name] := by
  simp only [format_entry]

theorem format_tree_nil_m (pfx : String) (compact : Bool) :
    format_tree_as_entries [] pfx compact = [] := rfl

theorem format_tree_cons_m (name : String) (node : Node) (rest : Tree) (pfx : String)
    (compact : Bool) :
    format_tree_as_entries ((name, node) :: rest) pfx compact =
      format_entry name node rest.isEmpty pfx compact ++
        format_tree_as_entries rest pfx compact := by
  simp only [format_tree_as_entries]

end M

/-! ### Rendered output shape (trailing newline) -/

theorem string_join_append (l₁ l₂ : List String) :
    String.join (l₁ ++ l₂) = String.join l₁ ++ String.join l₂ := by
  apply string_data_inj
  simp

theorem ends_newline_prepend (x : String) {y : String} (h : ∃ s, y = s ++ "\n") :
    ∃ s, x ++ y = s ++ "\n" := by
  obtain ⟨s, rfl⟩ := h
  exact ⟨x ++ s, by rw [String.append_assoc]⟩

namespace TG

theorem rendered_entry_newline (color : Bool) (name : String) (node : Node)
    (isLast : Bool) (pfx : String) (compact : Bool) :
    ∃ s, String.join ((format_entry name node isLast pfx compact).map (render_entry color)) =
      s ++ "\n" := by
  refine format_entry.induct
    (fun name node isLast pfx compact =>
      ∃ s, String.join ((format_entry name node isLast pfx compact).map (render_entry color)) =
        s ++ "\n")
    (fun tree pfx compact =>
      tree = [] ∨
        ∃ s, String.join ((format_tree_as_entries tree pfx compact).map (render_entry color)) =
          s ++ "\n")
    ?_ ?_ ?_ ?_ ?_ ?_ name node isLast pfx compact
  · intro name isLast pfx compact status childName childNode hcond ih
    rw [format_entry_chain _ _ _ _ _ _ _ hcond]
    exact ih
  · intro name isLast pfx compact status childName childNode hcond ih
    rw [format_entry_stop _ _ _ _ _ _ _ (by simpa using hcond)]
    rcases ih with hnil | ⟨s₂, hs₂⟩
    · exact absurd hnil (by simp)
    · simp only [List.cons_append, List.nil_append, List.map_cons, string_join_cons, hs₂]
      exact ends_newline_prepend _ (ends_newline_prepend _ (ends_newline_prepend _ ⟨s₂, rfl⟩))
  · intro name isLast pfx compact status children hnotsingle ih
    rcases children with _ | ⟨p, _ | ⟨q, cs⟩⟩
    · rw [format_entry_dir_nil]
      simp only [List.cons_append, List.nil_append, List.map_cons, string_join_cons,
        format_tree_nil, List.map_nil, render_entry]
      refine ends_newline_prepend _ (ends_newline_prepend _ ?_)
      refine ⟨if color = true then colorize "34" name else name, ?_⟩
      rw [string_join_nil, String.append_empty]
    · obtain ⟨cn, cnode⟩ := p
      exact absurd rfl (hnotsingle cn cnode)
    · rw [format_entry_dir_two]
      rcases ih with hnil | ⟨s₂, hs₂⟩
      · exact absurd hnil (by simp)
      · simp only [List.cons_append, List.nil_append, List.map_cons, string_join_cons, hs₂]
        exact ends_newline_prepend _ (ends_newline_prepend _ (ends_newline_prepend _ ⟨s₂, rfl⟩))
  · intro name isLast pfx compact status
    rw [format_entry_file]
    simp only [List.map_cons, List.map_nil, string_join_cons, render_entry]
    refine ends_newline_prepend _ (ends_newline_prepend _ ?_)
    refine ⟨(if color = true then apply_color name status else name), ?_⟩
    rw [string_join_nil, String.append_empty]
  · intro pfx compact
    left
    rfl
  · intro pfx compact name node rest ih₁ ih₂
    right
    rw [format_tree_cons, List.map_append, string_join_append]
    obtain ⟨s₁, hs₁⟩ := ih₁
    rw [hs₁]
    rcases ih₂ with rfl | ⟨s₂, hs₂⟩
    · rw [format_tree_nil]
      simp only [List.map_nil]
      exact ⟨s₁, by rw [string_join_nil, String.append_empty]⟩
    · rw [hs₂]
      exact ⟨s₁ ++ "\n" ++ s₂, by simp [String.append_assoc]⟩

theorem rendered_tree_newline (color : Bool) (tree : Tree) (pfx : String) (compact : Bool) :
    tree = [] ∨
      ∃ s, String.join ((format_tree_as_entries tree pfx compact).map (render_entry color)) =
        s ++ "\n" := by
  induction tree with
  | nil => left; rfl
  | cons p rest ih =>
    right
    obtain ⟨name, node⟩ := p
    rw [format_tree_cons, List.map_append, string_join_append]
    obtain ⟨s₁, hs₁⟩ := rendered_entry_newline color name node rest.isEmpty pfx compact
    rw [hs₁]
    rcases ih with rfl | ⟨s₂, hs₂⟩
    · rw [format_tree_nil]
      simp only [List.map_nil]
      exact ⟨s₁, by rw [string_join_nil, String.append_empty]⟩
    · rw [hs₂]
      exact ⟨s₁ ++ "\n" ++ s₂, by simp [String.append_assoc]⟩

end TG

/-! ### Refinement between the status-less and status-aware implementations -/

namespace M

theorem insertComponents_nil_m (t : Tree) : insertComponents t [] = t := rfl

theorem insertComponents_one_m (t : Tree) (k : String) :
    insertComponents t [k] = entryOrInsert t k Node.file := rfl

theorem insertComponents_two_m (t : Tree) (k r : String) (rs : List String) :
    insertComponents t (k :: r :: rs) =
      match find? (entryOrInsert t k (Node.directory [])) k with
      | some (Node.directory subtree) =>
        updateAt (entryOrInsert t k (Node.directory [])) k
          (Node.directory (insertComponents subtree (r :: rs)))
      | _ => entryOrInsert t k (Node.directory []) := rfl

end M

theorem toMainTree_isEmpty (t : TG.Tree) : (toMainTree t).isEmpty = t.isEmpty := by
  cases t with
  | nil => rfl
  | cons p ts => obtain ⟨k, v⟩ := p; rfl

theorem find?_toMainTree (t : TG.Tree) (k : String) :
    M.find? (toMainTree t) k = (TG.find? t k).map toMainNode := by
  induction t with
  | nil => rfl
  | cons p ts ih =>
    obtain ⟨k', v'⟩ := p
    rw [toMainTree]
    by_cases hk : k = k'
    · subst hk
      rw [M.find?, if_pos rfl, TG.find?, if_pos rfl]
      rfl
    · rw [M.find?, if_neg hk, TG.find?, if_neg hk, ih]

theorem toMainTree_entryOrInsert (t : TG.Tree) (k : String) (d : TG.Node) :
    toMainTree (TG.entryOrInsert t k d) = M.entryOrInsert (toMainTree t) k (toMainNode d) := by
  induction t with
  | nil => rfl
  | cons p ts ih =>
    obtain ⟨k', v'⟩ := p
    by_cases h1 : strLt k k' = true
    · rw [TG.entryOrInsert, if_pos h1]
      simp only [toMainTree]
      rw [M.entryOrInsert, if_pos h1]
    · by_cases h2 : k = k'
      · subst h2
        rw [TG.entryOrInsert, if_neg (by simp [h1]), if_pos rfl]
        simp only [toMainTree]
        rw [M.entryOrInsert, if_neg (by simp [h1]), if_pos rfl]
      · rw [TG.entryOrInsert, if_neg (by simp [h1]), if_neg h2]
        simp only [toMainTree]
        rw [M.entryOrInsert, if_neg (by simp [h1]), if_neg h2, ih]

theorem toMainTree_updateAt (t : TG.Tree) (k : String) (nv : TG.Node) :
    toMainTree (TG.updateAt t k nv) = M.updateAt (toMainTree t) k (toMainNode nv) := by
  induction t with
  | nil => rfl
  | cons p ts ih =>
    obtain ⟨k', v'⟩ := p
    by_cases hk : k = k'
    · subst hk
      rw [TG.updateAt, if_pos rfl]
      simp only [toMainTree]
      rw [M.updateAt, if_pos rfl]
    · rw [TG.updateAt, if_neg hk]
      simp only [toMainTree]
      rw [M.updateAt, if_neg hk, ih]

theorem toMainTree_insertComponents (segs : List String) :
    ∀ (t : TG.Tree) (s : Option String),
      toMainTree (TG.insertComponents t segs s) = M.insertComponents (toMainTree t) segs := by
  induction segs with
  | nil => intro t s; rfl
  | cons k rest ih =>
    intro t s
    cases rest with
    | nil =>
      rw [TG.insertComponents_one, M.insertComponents_one_m, toMainTree_entryOrInsert]
      rfl
    | cons r rs =>
      rw [TG.insertComponents_two, M.insertComponents_two_m]
      have hEO : toMainTree (TG.entryOrInsert t k TG.Node.new_directory) =
          M.entryOrInsert (toMainTree t) k (M.Node.directory []) := by
        rw [toMainTree_entryOrInsert]
        rfl
      cases hfind : TG.find? (TG.entryOrInsert t k TG.Node.new_directory) k with
      | none =>
        have hf2 : M.find? (M.entryOrInsert (toMainTree t) k (M.Node.directory [])) k =
            none := by
          rw [← hEO, find?_toMainTree, hfind]
          rfl
        simp only [hfind, hf2]
        exact hEO
      | some w =>
        obtain ⟨wst, wch⟩ := w
        cases wch with
        | none =>
          have hf2 : M.find? (M.entryOrInsert (toMainTree t) k (M.Node.directory [])) k =
              some M.Node.file := by
            rw [← hEO, find?_toMainTree, hfind]
            rfl
          simp only [hfind, hf2]
          exact hEO
        | some sub =>
          have hf2 : M.find? (M.entryOrInsert (toMainTree t) k (M.Node.directory [])) k =
              some (M.Node.directory (toMainTree sub)) := by
            rw [← hEO, find?_toMainTree, hfind]
            rfl
          simp only [hfind, hf2]
          rw [toMainTree_updateAt, hEO]
          have hnode : toMainNode (TG.Node.mk wst (some (TG.insertComponents sub (r :: rs) s)))
              = M.Node.directory (M.insertComponents (toMainTree sub) (r :: rs)) := by
            show M.Node.directory (toMainTree (TG.insertComponents sub (r :: rs) s)) = _
            rw [ih sub s]
          rw [hnode]

theorem format_entry_strip (name : String) (node : TG.Node) (isLast : Bool) (pfx : String)
    (compact : Bool) :
    M.format_entry name (toMainNode node) isLast pfx compact =
      (TG.format_entry name node isLast pfx compact).map stripEntry := by
  refine TG.format_entry.induct
    (fun name node isLast pfx compact =>
      M.format_entry name (toMainNode node) isLast pfx compact =
        (TG.format_entry name node isLast pfx compact).map stripEntry)
    (fun tree pfx compact =>
      M.format_tree_as_entries (toMainTree tree) pfx compact =
        (TG.format_tree_as_entries tree pfx compact).map stripEntry)
    ?_ ?_ ?_ ?_ ?_ ?_ name node isLast pfx compact
  · intro name isLast pfx compact status childName childNode hcond ih
    rw [TG.format_entry_chain _ _ _ _ _ _ _ hcond]
    obtain ⟨hc, hsome⟩ : compact = true ∧ (TG.Node.children childNode).isSome = true := by
      simpa using hcond
    obtain ⟨cst, cch⟩ := childNode
    cases cch with
    | none => simp [TG.Node.children] at hsome
    | some ch =>
      subst hc
      show M.format_entry name
        (M.Node.directory [(childName, M.Node.directory (toMainTree ch))]) isLast pfx true = _
      rw [M.format_entry_chain_m]
      exact ih
  · intro name isLast pfx compact status childName childNode hcond ih
    have hcond' : (compact && (TG.Node.children childNode).isSome) = false := by
      simpa using hcond
    rw [TG.format_entry_stop _ _ _ _ _ _ _ hcond']
    have hmc : (compact && (match toMainNode childNode with
        | M.Node.directory _ => true | M.Node.file => false)) = false := by
      obtain ⟨cst, cch⟩ := childNode
      cases cch with
      | none => simp [toMainNode]
      | some ch => simpa [toMainNode, TG.Node.children] using hcond'
    show M.format_entry name (M.Node.directory [(childName, toMainNode childNode)])
      isLast pfx compact = _
    rw [M.format_entry_stop_m _ _ _ _ _ _ hmc, List.map_append]
    congr 1
  · intro name isLast pfx compact status children hnotsingle ih
    rcases children with _ | ⟨p, _ | ⟨q, cs⟩⟩
    · rw [TG.format_entry_dir_nil]
      show M.format_entry name (M.Node.directory []) isLast pfx compact = _
      rw [M.format_entry_dir_nil_m, List.map_append]
      congr 1
    · obtain ⟨cn, cnode⟩ := p
      exact absurd rfl (hnotsingle cn cnode)
    · obtain ⟨pk, pv⟩ := p
      obtain ⟨qk, qv⟩ := q
      rw [TG.format_entry_dir_two]
      show M.format_entry name
        (M.Node.directory ((pk, toMainNode pv) :: (qk, toMainNode qv) :: toMainTree cs))
        isLast pfx compact = _
      rw [M.format_entry_dir_two_m, List.map_append]
      congr 1
  · intro name isLast pfx compact status
    rw [TG.format_entry_file]
    show M.format_entry name M.Node.file isLast pfx compact = _
    rw [M.format_entry_file_m]
    rfl
  · intro pfx compact
    rfl
  · intro pfx compact name node rest ih₁ ih₂
    show M.format_tree_as_entries ((name, toMainNode node) :: toMainTree rest) pfx compact = _
    rw [M.format_tree_cons_m, TG.format_tree_cons, List.map_append, toMainTree_isEmpty,
      ih₁, ih₂]

theorem format_tree_strip (tree : TG.Tree) (pfx : String) (compact : Bool) :
    M.format_tree_as_entries (toMainTree tree) pfx compact =
      (TG.format_tree_as_entries tree pfx compact).map stripEntry := by
  induction tree with
  | nil => rfl
  | cons p rest ih =>
    obtain ⟨name, node⟩ := p
    show M.format_tree_as_entries ((name, toMainNode node) :: toMainTree rest) pfx compact = _
    rw [M.format_tree_cons_m, TG.format_tree_cons, List.map_append, toMainTree_isEmpty]
    congr 1
    exact format_entry_strip name node rest.isEmpty pfx compact

theorem build_root_strip (paths : List String) :
    M.build_root paths = toMainTree (TG.build_root (paths.map (fun p => (p, "")))) := by
  unfold M.build_root TG.build_root
  rw [List.foldl_map]
  suffices h : ∀ tm : TG.Tree,
      toMainTree (List.foldl
        (fun tree p => if isBlank p then tree
          else TG.add_path_to_tree tree p (if ("" : String) = "" then none else some "")) tm paths) =
      List.foldl
        (fun tree path => if isBlank path then tree else M.add_path_to_tree tree path)
        (toMainTree tm) paths by
    exact (h []).symm
  induction paths with
  | nil => intro tm; rfl
  | cons p ps ih =>
    intro tm
    rw [List.foldl_cons, List.foldl_cons, ih]
    congr 1
    by_cases hb : isBlank p
    · rw [if_pos hb, if_pos hb]
    · rw [if_neg hb, if_neg hb, if_pos rfl]
      exact toMainTree_insertComponents (componentsOf p) tm none

theorem render_entry_strip_plain (e : TG.LineEntry) :
    M.render_entry false (stripEntry e) = TG.render_entry false e := by
  cases e <;> rfl

/-! ### Path normalizer facts -/

theorem ne_empty_of_mem_raw {path s : String} (h : s ∈ pathComponentsRaw path) : s ≠ "" := by
  simp only [pathComponentsRaw] at h
  rcases List.mem_append.mp h with h1 | h1
  · split at h1
    · rw [List.mem_singleton] at h1
      subst h1
      decide
    · simp at h1
  · split at h1
    · simp at h1
    next first rest heq =>
      have hall : ∀ x ∈ ((splitOnSlash path.data).map String.mk).filter
          (fun s => s ≠ ""), x ≠ "" := by
        intro x hx
        simpa using (List.mem_filter.mp hx).2
      rw [heq] at hall
      have hfirst : first ≠ "" := hall first (List.mem_cons_self _ _)
      have hrest : ∀ x ∈ rest, x ≠ "" := fun x hx =>
        hall x (List.mem_cons_of_mem _ hx)
      split at h1
      · split at h1
        · exact hrest s (List.mem_filter.mp h1).1
        · rcases List.mem_cons.mp h1 with rfl | hmem
          · decide
          · exact hrest s (List.mem_filter.mp hmem).1
      · rcases List.mem_cons.mp h1 with rfl | hmem
        · exact hfirst
        · exact hrest s (List.mem_filter.mp hmem).1

/-! ### Claim theorems -/

/-- C1, counterexample to the claim as stated: the two-element input
sequence with paths `a` and `a/b` and its transposition are permutations of
each other, yet folding `add_path_to_tree` over them yields trees whose
name sets below the node `a` differ: the first order files `a` as a file
with no children, the second as a directory containing `b`. -/
theorem claim_C1_counterexample :
    [("a", (none : Option String)), ("a/b", none)].Perm [("a/b", none), ("a", none)] ∧
    TG.childKeys (TG.build [("a", none), ("a/b", none)]) "a" = [] ∧
    TG.childKeys (TG.build [("a/b", none), ("a", none)]) "a" = ["b"] ∧
    TG.childKeys (TG.build [("a", none), ("a/b", none)]) "a" ≠
      TG.childKeys (TG.build [("a/b", none), ("a", none)]) "a" :=
  ⟨List.Perm.swap _ _ _, rfl, rfl, by decide⟩

/-- C1 (amended): for an input sequence of (path, status) pairs in which no
nonempty normalized component sequence of one path is a proper prefix of
that of another path, folding `add_path_to_tree` over any permutation of
the sequence produces the same tree up to statuses (statuses erased, the
trees are equal — in particular the set of node names agrees at every
level; only the statuses attached to duplicate leaf paths may differ). -/
theorem claim_C1 (l₁ l₂ : List (String × Option String)) (hperm : l₁.Perm l₂)
    (hpf : ∀ p ∈ l₁, ∀ q ∈ l₁, componentsOf p.1 ≠ [] → componentsOf q.1 ≠ [] →
      ¬ properPrefix (componentsOf p.1) (componentsOf q.1)) :
    TG.eraseTree (TG.build l₁) = TG.eraseTree (TG.build l₂) := by
  unfold TG.build
  rw [TG.erase_build_fold, TG.erase_build_fold]
  refine hperm.foldl_eq' ?_ _
  intro x hx y hy z
  by_cases hxe : componentsOf x.1 = []
  · simp only [hxe, TG.insertComponents_nil]
  · by_cases hye : componentsOf y.1 = []
    · simp only [hye, TG.insertComponents_nil]
    · exact TG.insertComponents_comm _ _ (hpf x hx y hy hxe hye) (hpf y hy x hx hye hxe) z

/-- Witness for C1 (amended) at a concrete prefix-free input. -/
theorem claim_C1_witness :
    TG.eraseTree (TG.build [("a/b", some "M"), ("c", none)]) =
      TG.eraseTree (TG.build [("c", none), ("a/b", some "M")]) :=
  claim_C1 _ _ (List.Perm.swap _ _ _) (by decide)

/-- C2: under `compact = true` the renderer folds a directory label with the
name of its sole directory child and continues from that child (first
conjunct); the chain stops and the node renders with its own unjoined label
when it has zero children, when its sole child is a file, or when it has
two or more children, recursion continuing into the children of the node
where the chain stopped (next three conjuncts); concretely, the chain
`a/b/c` over a single file renders as the single label `a/b/c` when compact
and as three nested directories when not, while a two-child directory or a
directory over a sole file child is never folded into its parent label. -/
theorem claim_C2 :
    (∀ (pfx name childName : String) (st : Option String) (childNode : TG.Node)
      (isLast : Bool), (TG.Node.children childNode).isSome = true →
      TG.format_entry name (TG.Node.mk st (some [(childName, childNode)])) isLast pfx true =
        TG.format_entry (name ++ "/" ++ childName) childNode isLast pfx true) ∧
    (∀ (pfx name : String) (st : Option String) (isLast : Bool),
      TG.format_entry name (TG.Node.mk st (some [])) isLast pfx true =
        [TG.LineEntry.indent pfx,
          TG.LineEntry.connector (if isLast then "└── " else "├── "),
          TG.LineEntry.directory name] ++
          TG.format_tree_as_entries [] (pfx ++ (if isLast then "    " else "│   ")) true) ∧
    (∀ (pfx name childName : String) (st cst : Option String) (isLast : Bool),
      TG.format_entry name (TG.Node.mk st (some [(childName, TG.Node.mk cst none)]))
          isLast pfx true =
        [TG.LineEntry.indent pfx,
          TG.LineEntry.connector (if isLast then "└── " else "├── "),
          TG.LineEntry.directory name] ++
          TG.format_tree_as_entries [(childName, TG.Node.mk cst none)]
            (pfx ++ (if isLast then "    " else "│   ")) true) ∧
    (∀ (pfx name : String) (st : Option String) (p q : String × TG.Node)
      (cs : List (String × TG.Node)) (isLast : Bool),
      TG.format_entry name (TG.Node.mk st (some (p :: q :: cs))) isLast pfx true =
        [TG.LineEntry.indent pfx,
          TG.LineEntry.connector (if isLast then "└── " else "├── "),
          TG.LineEntry.directory name] ++
          TG.format_tree_as_entries (p :: q :: cs)
            (pfx ++ (if isLast then "    " else "│   ")) true) ∧
    TG.generate_tree_from_paths [("a/b/c/file.txt", "")] ⟨true, false⟩ =
      "└── a/b/c\n    └── file.txt\n" ∧
    TG.generate_tree_from_paths [("a/b/c/file.txt", "")] ⟨false, false⟩ =
      "└── a\n    └── b\n        └── c\n            └── file.txt\n" ∧
    TG.generate_tree_from_paths [("a/b", ""), ("a/c", "")] ⟨true, false⟩ =
      "└── a\n    ├── b\n    └── c\n" ∧
    TG.generate_tree_from_paths [("a/b", "")] ⟨true, false⟩ =
      "└── a\n    └── b\n" := by
  refine ⟨?_, ?_, ?_, ?_, by decide, by decide, by decide, by decide⟩
  · intro pfx name childName st childNode isLast hdir
    exact TG.format_entry_chain _ _ _ _ _ _ _ (by simp [hdir])
  · intro pfx name st isLast
    exact TG.format_entry_dir_nil _ _ _ _ _
  · intro pfx name childName st cst isLast
    exact TG.format_entry_stop _ _ _ _ _ _ _ (by simp [TG.Node.children])
  · intro pfx name st p q cs isLast
    exact TG.format_entry_dir_two _ _ _ _ _ _ _ _

/-- Witness for C2 at a concrete one-link chain. -/
theorem claim_C2_witness :
    TG.format_entry "a" (TG.Node.mk none (some [("b", TG.Node.mk none (some []))]))
        true "" true =
      TG.format_entry ("a" ++ "/" ++ "b") (TG.Node.mk none (some [])) true "" true :=
  claim_C2.1 "" "a" "b" none (TG.Node.mk none (some [])) true rfl

/-- C3: the root tree built by `generate_tree_from_paths` (the fold
`build_root`) satisfies the full sortedness invariant — at every directory
level of the tree the rendered iteration order, which is the list order of
the embedded map, is strictly ascending in the string order — whatever the
insertion order of the input paths. -/
theorem claim_C3 (paths_with_status : List (String × String)) :
    TG.sortedTree (TG.build_root paths_with_status) = true := by
  have h : ∀ (l : List (String × String)) (t : TG.Tree), TG.sortedTree t = true →
      TG.sortedTree (l.foldl (fun tree ps =>
        if isBlank ps.1 then tree
        else TG.add_path_to_tree tree ps.1 (if ps.2 = "" then none else some ps.2)) t)
        = true := by
    intro l
    induction l with
    | nil => intro t ht; exact ht
    | cons p ps ih =>
      intro t ht
      rw [List.foldl_cons]
      apply ih
      by_cases hb : isBlank p.1
      · rw [if_pos hb]; exact ht
      · rw [if_neg hb]; exact TG.sorted_add_path_to_tree _ _ ht
  exact h paths_with_status [] rfl

/-- C4: in a tree (satisfying the map sortedness invariant) where some name
is already filed as a file node, inserting a path that passes through that
name as a non-final segment leaves the whole tree unchanged: the file is
not overwritten and no deeper directories are created (and the total
function raises no error). -/
theorem claim_C4 (t : TG.Tree) (path : String) (status st : Option String)
    (pre : List String) (name : String) (rest : List String) (sub : TG.Tree)
    (hs : TG.sortedTree t = true)
    (hcomp : componentsOf path = pre ++ name :: rest)
    (hrest : rest ≠ [])
    (hw : TG.walk? t pre = some sub)
    (hfile : TG.find? sub name = some (TG.Node.mk st none)) :
    TG.add_path_to_tree t path status = t := by
  unfold TG.add_path_to_tree
  rw [hcomp]
  apply TG.insertComponents_walk_stable hs hw (by simp)
  obtain ⟨r, rs, rfl⟩ : ∃ r rs, rest = r :: rs := by
    cases rest with
    | nil => exact absurd rfl hrest
    | cons r rs => exact ⟨r, rs, rfl⟩
  rw [TG.insertComponents_cons]
  exact TG.upsert_stable (TG.sortedTree_of_walk? hs hw) hfile rfl

/-- Witness for C4: inserting `a/b` into a tree holding the file `a`. -/
theorem claim_C4_witness :
    TG.add_path_to_tree [("a", TG.Node.mk none none)] "a/b" (some "M") =
      [("a", TG.Node.mk none none)] :=
  claim_C4 [("a", TG.Node.mk none none)] "a/b" (some "M") none [] "a" ["b"]
    [("a", TG.Node.mk none none)] rfl rfl (by decide) rfl rfl

/-- C5: inserting the same path a second time with any status yields the
tree of the first insertion unchanged (so in particular insertion is
idempotent and the first status wins), and more generally an insertion
whose full component sequence already leads to an existing node of a
sorted tree is ignored entirely. -/
theorem claim_C5 :
    (∀ (t : TG.Tree) (path : String) (s₁ s₂ : Option String),
      TG.add_path_to_tree (TG.add_path_to_tree t path s₁) path s₂ =
        TG.add_path_to_tree t path s₁) ∧
    (∀ (t sub : TG.Tree) (path : String) (s : Option String) (pre : List String)
      (last : String) (node : TG.Node),
      TG.sortedTree t = true → componentsOf path = pre ++ [last] →
      TG.walk? t pre = some sub → TG.find? sub last = some node →
      TG.add_path_to_tree t path s = t) := by
  constructor
  · intro t path s₁ s₂
    unfold TG.add_path_to_tree
    exact TG.insertComponents_twice t (componentsOf path) s₁ s₂
  · intro t sub path s pre last node hs hcomp hw hfind
    unfold TG.add_path_to_tree
    rw [hcomp]
    apply TG.insertComponents_walk_stable hs hw (by simp)
    rw [TG.insertComponents_one]
    exact TG.entryOrInsert_of_find?_some (TG.sortedTree_of_walk? hs hw) hfind _

/-- Witness for C5: a double insertion with differing statuses and an
insertion over an existing leaf. -/
theorem claim_C5_witness :
    TG.add_path_to_tree (TG.add_path_to_tree [] "x/y" (some "M")) "x/y" (some "A") =
      TG.add_path_to_tree [] "x/y" (some "M") ∧
    TG.add_path_to_tree [("a", TG.Node.mk (some "M") none)] "a" (some "A") =
      [("a", TG.Node.mk (some "M") none)] :=
  ⟨claim_C5.1 [] "x/y" (some "M") (some "A"),
    claim_C5.2 [("a", TG.Node.mk (some "M") none)] [("a", TG.Node.mk (some "M") none)]
      "a" (some "A") [] "a" (TG.Node.mk (some "M") none) rfl rfl rfl rfl⟩

/-- C6: the two-file case `a/b`, `a/c` without compaction renders exactly
the three specified lines, with `├── ` on non-last children, `└── ` on last
children and four-space indentation under a terminal parent; a second case
with a non-last parent shows the `│   ` indent continuation. -/
theorem claim_C6 :
    TG.generate_tree_from_paths [("a/b", ""), ("a/c", "")] ⟨false, false⟩ =
      "└── a\n    ├── b\n    └── c\n" ∧
    TG.generate_tree_from_paths [("a/b", ""), ("c", "")] ⟨false, false⟩ =
      "├── a\n│   └── b\n└── c\n" := by
  constructor <;> decide

/-- C7: the path normalizer never produces an empty segment, drops the root
marker `/` and any segment ending in the drive suffix `:\`, and a path
whose component sequence is empty after the filtering leaves the tree
untouched (no entry is produced). -/
theorem claim_C7 :
    (∀ path : String, "" ∉ componentsOf path ∧ "/" ∉ componentsOf path ∧
      ∀ s ∈ componentsOf path, endsWithDriveSuffix s = false) ∧
    (∀ (t : TG.Tree) (path : String) (st : Option String), componentsOf path = [] →
      TG.add_path_to_tree t path st = t) := by
  constructor
  · intro path
    refine ⟨?_, ?_, ?_⟩
    · intro hmem
      exact ne_empty_of_mem_raw (List.mem_filter.mp hmem).1 rfl
    · intro hmem
      have h := (List.mem_filter.mp hmem).2
      simp [endsWithDriveSuffix] at h
    · intro x hx
      have h := (List.mem_filter.mp hx).2
      simp only [Bool.not_eq_eq_eq_not, Bool.not_true, Bool.or_eq_false_iff] at h
      exact h.2
  · intro t path st h
    unfold TG.add_path_to_tree
    rw [h, TG.insertComponents_nil]

/-- Witness for C7: the bare root path produces no entry, and a concrete
path has no empty component. -/
theorem claim_C7_witness :
    TG.add_path_to_tree [] "/" none = [] ∧ "" ∉ componentsOf "a//b" :=
  ⟨claim_C7.2 [] "/" none rfl, (claim_C7.1 "a//b").1⟩

/-- C8: with color enabled, file labels are styled solely by their status
code (`M` yellow 33, `A` green 32, `D` red 31, `R` cyan 36, `C` magenta 35,
`U` bold red 1;31, `??` bright-black 90, anything else unstyled), directory
labels always use the fixed blue style, and indent and connector fragments
always use the bright-black style, independent of any status; the concrete
colored rendering reproduces the escape sequence of the repository test. -/
theorem claim_C8 :
    (∀ s : String, TG.apply_color s (some "M") = "\x1b[33m" ++ s ++ "\x1b[0m") ∧
    (∀ s : String, TG.apply_color s (some "A") = "\x1b[32m" ++ s ++ "\x1b[0m") ∧
    (∀ s : String, TG.apply_color s (some "D") = "\x1b[31m" ++ s ++ "\x1b[0m") ∧
    (∀ s : String, TG.apply_color s (some "R") = "\x1b[36m" ++ s ++ "\x1b[0m") ∧
    (∀ s : String, TG.apply_color s (some "C") = "\x1b[35m" ++ s ++ "\x1b[0m") ∧
    (∀ s : String, TG.apply_color s (some "U") = "\x1b[1;31m" ++ s ++ "\x1b[0m") ∧
    (∀ s : String, TG.apply_color s (some "??") = "\x1b[90m" ++ s ++ "\x1b[0m") ∧
    (∀ s : String, TG.apply_color s none = s) ∧
    (∀ (s st : String), st ∉ (["M", "A", "D", "R", "C", "U", "??"] : List String) →
      TG.apply_color s (some st) = s) ∧
    (∀ (s : String) (st : Option String),
      TG.render_entry true (TG.LineEntry.file s st) = TG.apply_color s st ++ "\n") ∧
    (∀ s : String,
      TG.render_entry true (TG.LineEntry.directory s) = "\x1b[34m" ++ s ++ "\x1b[0m" ++ "\n") ∧
    (∀ s : String, TG.render_entry true (TG.LineEntry.connector s) = "\x1b[90m" ++ s ++ "\x1b[0m") ∧
    (∀ s : String, TG.render_entry true (TG.LineEntry.indent s) = "\x1b[90m" ++ s ++ "\x1b[0m") ∧
    TG.generate_tree_from_paths [("a/b", "M"), ("a/c", "A")] ⟨false, true⟩ =
      "\x1b[90m\x1b[0m\x1b[90m└── \x1b[0m\x1b[34ma\x1b[0m\n\x1b[90m    \x1b[0m\x1b[90m├── \x1b[0m\x1b[33mb\x1b[0m\n\x1b[90m    \x1b[0m\x1b[90m└── \x1b[0m\x1b[32mc\x1b[0m\n" := by
  refine ⟨fun s => rfl, fun s => rfl, fun s => rfl, fun s => rfl, fun s => rfl, fun s => rfl,
    fun s => rfl, fun s => rfl, ?_, fun s st => rfl, fun s => rfl, fun s => rfl, fun s => rfl,
    by decide⟩
  intro s st hmem
  rw [TG.apply_color.eq_def]
  split <;> simp_all

/-- Witness for C8: an unrecognized status renders unstyled. -/
theorem claim_C8_witness : TG.apply_color "f.txt" (some "X") = "f.txt" :=
  claim_C8.2.2.2.2.2.2.2.2.1 "f.txt" "X" (by decide)

/-- C9: an input sequence of only blank paths renders to the empty string,
and for every input the rendered output is empty or ends with a newline
(since every rendered node contributes indent, connector and a
newline-terminated label in order). -/
theorem claim_C9 :
    (∀ (pws : List (String × String)) (opts : TG.Options),
      (∀ p ∈ pws, isBlank p.1 = true) → TG.generate_tree_from_paths pws opts = "") ∧
    (∀ (pws : List (String × String)) (opts : TG.Options),
      TG.generate_tree_from_paths pws opts = "" ∨
        ∃ s, TG.generate_tree_from_paths pws opts = s ++ "\n") := by
  constructor
  · intro pws opts hall
    have hroot : ∀ (l : List (String × String)) (t : TG.Tree),
        (∀ p ∈ l, isBlank p.1 = true) →
        l.foldl (fun tree ps => if isBlank ps.1 then tree
          else TG.add_path_to_tree tree ps.1 (if ps.2 = "" then none else some ps.2)) t
          = t := by
      intro l
      induction l with
      | nil => intro t _; rfl
      | cons p ps ih =>
        intro t h
        rw [List.foldl_cons, if_pos (h p (List.mem_cons_self _ _))]
        exact ih t (fun q hq => h q (List.mem_cons_of_mem _ hq))
    unfold TG.generate_tree_from_paths TG.build_root
    rw [hroot pws [] hall]
    rfl
  · intro pws opts
    rcases TG.rendered_tree_newline opts.color (TG.build_root pws) "" opts.compact
      with h | ⟨s, hs⟩
    · left
      unfold TG.generate_tree_from_paths
      rw [h]
      rfl
    · right
      exact ⟨s, hs⟩

/-- Witness for C9: a blank-only input renders to the empty string. -/
theorem claim_C9_witness :
    TG.generate_tree_from_paths [("  ", ""), ("", "M")] ⟨false, true⟩ = "" :=
  claim_C9.1 [("  ", ""), ("", "M")] ⟨false, true⟩ (by decide)

/-- C10: for every list of paths and every compact setting, the status-less
implementation of `src/main.rs` with color disabled produces exactly the
same output string as the status-aware implementation of
`src/tree_generator.rs` applied to the same paths paired with empty
statuses. -/
theorem claim_C10 (paths : List String) (compact : Bool) :
    M.generate_tree_from_paths paths ⟨compact, false⟩ =
      TG.generate_tree_from_paths (paths.map (fun p => (p, ""))) ⟨compact, false⟩ := by
  unfold M.generate_tree_from_paths TG.generate_tree_from_paths
  rw [build_root_strip, format_tree_strip, List.map_map]
  have h : (M.render_entry false ∘ stripEntry) = TG.render_entry false :=
    funext fun e => render_entry_strip_plain e
  rw [h]
